import Mathlib

set_option maxRecDepth 100000

/-
Verification of the chained hash table in
src/backend/affinity/utils/hash64.c and of the partition-map query in
src/backend/affinity/affinity.c.

Modelling conventions:
- affinity_key_t (int64_t) is modelled as Int; the hash function first
  reinterprets the key as uint64 (affinity_ukey_t), modelled as
  (key % 2^64).toNat, which is exactly the two's-complement
  reinterpretation for keys in the int64 range.
- affinity_value_t (uint32_t) is modelled as Nat; the table never computes
  on values, so the uint32 width only shows up in the not-found sentinel
  (affinity_value_t)(-1) = 4294967295.
- Machine 64-bit arithmetic in the hash mixer is Nat arithmetic reduced
  mod 2^64 at each multiplication; the final cast to unsigned int is a
  reduction mod 2^32.
- The bucket array Entry** is a List (List Entry): one chain per bucket,
  chain head = list head.  malloc/calloc outcomes are explicit Bool
  parameters on the operations that allocate (resize's calloc, put's
  entry malloc); every other operation is total.
- The C expression ht_load_factor(ht) > 0.75 compares IEEE doubles.  For
  every count and size below 2^52 the double division is exact enough
  that the comparison agrees with the rational count/size > 3/4, i.e.
  with 3*size < 4*count on Nat (lemma lt_load_factor_iff below); at
  size = 0 the C expression is count/0.0 = +inf (true) for count > 0 and
  0.0/0.0 = NaN (false) for count = 0, which again agrees with
  3*0 < 4*count.  ht_put therefore uses the Nat comparison.
-/

namespace Affinity

/-- Model of affinity_key_t: a signed 64-bit key (int64_t). -/
abbrev Key := Int

/-- Model of affinity_value_t: an unsigned 32-bit value (uint32_t). -/
abbrev Value := Nat

/-- Model of (affinity_value_t)(-1), the not-found sentinel returned by
ht_get_value and query_partition: the uint32 representation of -1. -/
def NOT_FOUND : Value := 4294967295

/-- Model of struct Entry from hash64.c: a chain node holding key and
value.  The next pointer is the tail of the enclosing List. -/
structure Entry where
  key : Key
  value : Value
deriving DecidableEq

/-- Model of struct HashTable from hash64.c: the bucket array, the bucket
count (field name: size) and the live element count (field name: count). -/
structure HashTable where
  buckets : List (List Entry)
  size : Nat
  count : Nat
deriving DecidableEq

/-- Model of the splitmix64-style avalanche mixer inside hash() in
hash64.c: uint64 xor-shift and multiply rounds on the unsigned
reinterpretation of the key. -/
def mix64 (key : Key) : Nat :=
  let h1 := (key % (2:Int) ^ 64).toNat
  let h2 := h1 ^^^ (h1 >>> 33)
  let h3 := (h2 * 0xff51afd7ed558ccd) % 2 ^ 64
  let h4 := h3 ^^^ (h3 >>> 33)
  let h5 := (h4 * 0xc4ceb9fe1a85ec53) % 2 ^ 64
  h5 ^^^ (h5 >>> 33)

/-- Model of hash() in hash64.c: mix, reduce modulo the bucket count,
cast to unsigned int (mod 2^32).  In C the reduction h % size is
undefined behaviour when size = 0 (division by zero); Lean's total % is
used here, and the capacity > 0 precondition is tracked by the claims
about it. -/
def hash (key : Key) (size : Nat) : Nat :=
  (mix64 key % size) % 2 ^ 32

/-- Model of ht_create() in hash64.c on the allocation-success path:
size zeroed buckets (calloc), count 0.  ht_create performs no check on
the requested size; size = 0 is accepted as-is. -/
def ht_create (size : Nat) : HashTable :=
  { buckets := List.replicate size [], size := size, count := 0 }

/-- One relink step of the rehash loop in ht_resize(): push the reused
entry node onto the head of its new bucket. -/
def pushEntry (newSize : Nat) (bs : List (List Entry)) (e : Entry) : List (List Entry) :=
  bs.set (hash e.key newSize) (e :: bs.getD (hash e.key newSize) [])

/-- The two nested loops of ht_resize() in hash64.c: walk every old
bucket in order, walk each chain from its head, relink every entry into
the fresh bucket array and count it. -/
def rehashAll (newSize : Nat) (oldBuckets : List (List Entry)) : List (List Entry) × Nat :=
  oldBuckets.foldl
    (fun acc chain => chain.foldl (fun acc2 e => (pushEntry newSize acc2.1 e, acc2.2 + 1)) acc)
    (List.replicate newSize [], 0)

/-- Model of ht_resize() in hash64.c.  allocOk is the outcome of the
calloc for the new bucket array: on failure the old buckets are restored
and the table is returned unchanged (a warning is printed); on success
every entry is relinked against the new size and count is rebuilt by the
relink loop. -/
def ht_resize (allocOk : Bool) (ht : HashTable) (newSize : Nat) : HashTable :=
  if allocOk then
    { buckets := (rehashAll newSize ht.buckets).1,
      size := newSize,
      count := (rehashAll newSize ht.buckets).2 }
  else ht

/-- The chain search loop shared by ht_get / ht_get_value / ht_put: the
value of the first entry whose key matches, if any. -/
def findInChain (chain : List Entry) (key : Key) : Option Value :=
  match chain with
  | [] => none
  | e :: rest => if e.key = key then some e.value else findInChain rest key

/-- Whether the chain search loop finds the key. -/
def chainContains (chain : List Entry) (key : Key) : Bool :=
  match chain with
  | [] => false
  | e :: rest => e.key == key || chainContains rest key

/-- The update arm of the ht_put() chain walk: overwrite the value of
the first entry whose key matches, leaving the rest of the chain as is. -/
def updateChain (chain : List Entry) (key : Key) (value : Value) : List Entry :=
  match chain with
  | [] => []
  | e :: rest =>
    if e.key = key then { e with value := value } :: rest
    else e :: updateChain rest key value

/-- The unlink performed by ht_remove(): drop the first entry whose key
matches; none when no entry matches. -/
def removeFromChain (chain : List Entry) (key : Key) : Option (List Entry) :=
  match chain with
  | [] => none
  | e :: rest =>
    if e.key = key then some rest
    else (removeFromChain rest key).map (e :: ·)

/-- The insertion part of ht_put() in hash64.c, after the resize check:
walk the key's chain; on a match overwrite in place, otherwise allocate
a node (entryOk is the malloc outcome; on failure an error is printed
and nothing is inserted) and prepend it to the bucket head. -/
def ht_insert (entryOk : Bool) (ht : HashTable) (key : Key) (value : Value) : HashTable :=
  let index := hash key ht.size
  let chain := ht.buckets.getD index []
  if chainContains chain key then
    { ht with buckets := ht.buckets.set index (updateChain chain key value) }
  else if entryOk then
    { ht with
        buckets := ht.buckets.set index ((Entry.mk key value) :: chain),
        count := ht.count + 1 }
  else ht

/-- Model of ht_put() in hash64.c: if the load factor before the
insertion exceeds 0.75 (the double comparison, exactly 3*size < 4*count,
see the header comment and lt_load_factor_iff), first resize to twice
the size, then insert or update against the (possibly new) size. -/
def ht_put (resizeOk entryOk : Bool) (ht : HashTable) (key : Key) (value : Value) : HashTable :=
  ht_insert entryOk
    (if 3 * ht.size < 4 * ht.count then ht_resize resizeOk ht (ht.size * 2) else ht)
    key value

/-- Model of ht_get() in hash64.c: search the key's chain; some v models
returning true with *out_value = v, none models returning false. -/
def ht_get (ht : HashTable) (key : Key) : Option Value :=
  findInChain (ht.buckets.getD (hash key ht.size) []) key

/-- Model of ht_get_value() in hash64.c: the found value, or -1 cast to
affinity_value_t when the chain walk falls through. -/
def ht_get_value (ht : HashTable) (key : Key) : Value :=
  match findInChain (ht.buckets.getD (hash key ht.size) []) key with
  | some v => v
  | none => NOT_FOUND

/-- Model of ht_contains() in hash64.c: ht_get with the value discarded. -/
def ht_contains (ht : HashTable) (key : Key) : Bool :=
  (ht_get ht key).isSome

/-- Model of ht_size() in hash64.c. -/
def ht_size (ht : HashTable) : Nat :=
  ht.count

/-- Model of ht_load_factor() in hash64.c: (double)count / (double)size,
modelled as the exact rational quotient. -/
def ht_load_factor (ht : HashTable) : ℚ :=
  (ht.count : ℚ) / (ht.size : ℚ)

/-- Model of ht_remove() in hash64.c: unlink and free the first matching
entry of the key's chain, decrement count; (false, unchanged table) when
the key is not found. -/
def ht_remove (ht : HashTable) (key : Key) : Bool × HashTable :=
  let index := hash key ht.size
  match removeFromChain (ht.buckets.getD index []) key with
  | some chain =>
    (true, { ht with buckets := ht.buckets.set index chain, count := ht.count - 1 })
  | none => (false, ht)

/-- Model of ht_clear() in hash64.c: free every chain, reset every
bucket to NULL and count to 0; buckets array and size are kept. -/
def ht_clear (ht : HashTable) : HashTable :=
  { ht with buckets := ht.buckets.map (fun _ => []), count := 0 }

/-- Model of query_partition() in affinity.c: the static partition_map
pointer is the Option argument (none = NULL, i.e. never initialized or
already cleaned up); returns the found value, else -1 cast to
affinity_value_t. -/
def query_partition (partition_map : Option HashTable) (key : Key) : Value :=
  match partition_map with
  | some pm =>
    match ht_get pm key with
    | some v => v
    | none => NOT_FOUND
  | none => NOT_FOUND

/-- All live entries of the table, in bucket order. -/
def entries (ht : HashTable) : List Entry :=
  ht.buckets.flatten

/-- The keys of all live entries. -/
def tableKeys (ht : HashTable) : List Key :=
  (entries ht).map Entry.key

/-- The structural invariant of a live table: the bucket array length is
the size field, the size is positive, every entry sits in the bucket its
key hashes to, no key occurs twice across all chains, and count is the
number of live entries. -/
def WF (ht : HashTable) : Prop :=
  ht.buckets.length = ht.size ∧
  0 < ht.size ∧
  (∀ i < ht.buckets.length, ∀ e ∈ ht.buckets.getD i [], hash e.key ht.size = i) ∧
  (tableKeys ht).Nodup ∧
  ht.count = (entries ht).length

instance (ht : HashTable) : Decidable (WF ht) := by
  unfold WF tableKeys entries
  infer_instance

/-- Table states reachable through the public API from a create with
positive capacity, with arbitrary allocation outcomes inside put. -/
inductive Reachable : HashTable → Prop where
  | create : ∀ n, 0 < n → Reachable (ht_create n)
  | put : ∀ (rOk eOk : Bool) ht k v, Reachable ht → Reachable (ht_put rOk eOk ht k v)
  | remove : ∀ ht k, Reachable ht → Reachable (ht_remove ht k).2
  | clear : ∀ ht, Reachable ht → Reachable (ht_clear ht)

/-- Table states reachable through the public API from a create with
positive capacity when every allocation succeeds. -/
inductive ReachableOk : HashTable → Prop where
  | create : ∀ n, 0 < n → ReachableOk (ht_create n)
  | put : ∀ ht k v, ReachableOk ht → ReachableOk (ht_put true true ht k v)
  | remove : ∀ ht k, ReachableOk ht → ReachableOk (ht_remove ht k).2
  | clear : ∀ ht, ReachableOk ht → ReachableOk (ht_clear ht)

/-- A sequence of ht_put calls with all allocations succeeding, in call
order. -/
def putList (ht : HashTable) (ps : List (Key × Value)) : HashTable :=
  ps.foldl (fun h p => ht_put true true h p.1 p.2) ht

/- ==========================================
   Generic list helpers for the bucket array
   ========================================== -/

theorem getD_set_self (bs : List (List Entry)) (i : Nat) (c : List Entry)
    (h : i < bs.length) : (bs.set i c).getD i [] = c := by
  rw [List.getD_eq_getElem?_getD, List.getElem?_set_self h]
  rfl

theorem getD_set_ne (bs : List (List Entry)) {i j : Nat} (c : List Entry)
    (h : i ≠ j) : (bs.set i c).getD j [] = bs.getD j [] := by
  rw [List.getD_eq_getElem?_getD, List.getElem?_set_ne h, ← List.getD_eq_getElem?_getD]

theorem getD_mem (bs : List (List Entry)) (i : Nat) (h : i < bs.length) :
    bs.getD i [] ∈ bs := by
  rw [List.getD_eq_getElem?_getD, List.getElem?_eq_getElem h]
  exact List.getElem_mem h

theorem getD_replicate_nil (n i : Nat) :
    (List.replicate n ([] : List Entry)).getD i [] = [] := by
  rw [List.getD_eq_getElem?_getD, List.getElem?_replicate]
  split <;> rfl

theorem flatten_replicate_nil (n : Nat) :
    (List.replicate n ([] : List Entry)).flatten = [] := by
  induction n with
  | zero => rfl
  | succ m ih => simp [List.replicate_succ, ih]

theorem getD_map_const_nil (bs : List (List Entry)) (i : Nat) :
    (bs.map (fun _ => ([] : List Entry))).getD i [] = [] := by
  induction bs generalizing i with
  | nil => rfl
  | cons b rest ih => cases i <;> simp [ih]

theorem flatten_map_const_nil (bs : List (List Entry)) :
    (bs.map (fun _ => ([] : List Entry))).flatten = [] := by
  induction bs with
  | nil => rfl
  | cons b rest ih => simp [ih]

/-- Replacing bucket i splits the flattened entry list into the part
before bucket i, the replaced chain, and the part after it. -/
theorem flatten_set_decomp (bs : List (List Entry)) (i : Nat) (c : List Entry)
    (h : i < bs.length) :
    ∃ pre post, bs.flatten = pre ++ bs.getD i [] ++ post ∧
      (bs.set i c).flatten = pre ++ c ++ post := by
  induction bs generalizing i with
  | nil => simp at h
  | cons b rest ih =>
    cases i with
    | zero => exact ⟨[], rest.flatten, by simp⟩
    | succ j =>
      have hj : j < rest.length := by simpa using h
      obtain ⟨pre, post, h1, h2⟩ := ih j hj
      refine ⟨b ++ pre, post, ?_, ?_⟩
      · simp [h1, List.append_assoc]
      · simp [h2, List.append_assoc]

/- ==========================================
   Chain-level lemmas
   ========================================== -/

theorem chainContains_iff (c : List Entry) (k : Key) :
    chainContains c k = true ↔ k ∈ c.map Entry.key := by
  induction c with
  | nil => simp [chainContains]
  | cons e rest ih =>
    rw [chainContains]
    simp only [List.map_cons, List.mem_cons, Bool.or_eq_true, beq_iff_eq, ih]
    constructor
    · rintro (h | h)
      · exact Or.inl h.symm
      · exact Or.inr h
    · rintro (h | h)
      · exact Or.inl h.symm
      · exact Or.inr h

theorem findInChain_eq_none_iff (c : List Entry) (k : Key) :
    findInChain c k = none ↔ k ∉ c.map Entry.key := by
  induction c with
  | nil => simp [findInChain]
  | cons e rest ih =>
    by_cases h : e.key = k
    · simp [findInChain, h]
    · have hne : ¬ k = e.key := fun hh => h hh.symm
      simp [findInChain, h, ih, hne]

theorem chainContains_eq_true_of_some {c : List Entry} {k : Key} {v : Value}
    (h : findInChain c k = some v) : chainContains c k = true := by
  by_contra hc
  have hm : k ∉ c.map Entry.key := fun hmem => hc ((chainContains_iff c k).mpr hmem)
  have hn := (findInChain_eq_none_iff c k).mpr hm
  rw [h] at hn
  cases hn

theorem findInChain_some_mem {c : List Entry} {k : Key} {v : Value}
    (h : findInChain c k = some v) : Entry.mk k v ∈ c := by
  induction c with
  | nil => cases h
  | cons e rest ih =>
    rw [findInChain] at h
    split at h
    case isTrue heq =>
      cases h
      cases e
      cases heq
      exact List.mem_cons_self _ _
    case isFalse heq =>
      exact List.mem_cons_of_mem _ (ih h)

theorem mem_findInChain_isSome {c : List Entry} {k : Key} {v : Value}
    (h : Entry.mk k v ∈ c) : (findInChain c k).isSome := by
  induction c with
  | nil => cases h
  | cons e rest ih =>
    rw [findInChain]
    split
    case isTrue heq => rfl
    case isFalse heq =>
      rcases List.mem_cons.1 h with h0 | h0
      · cases h0; exact absurd rfl heq
      · exact ih h0

theorem findInChain_append (c1 c2 : List Entry) (k : Key) :
    findInChain (c1 ++ c2) k =
      match findInChain c1 k with
      | some v => some v
      | none => findInChain c2 k := by
  induction c1 with
  | nil => simp [findInChain]
  | cons e rest ih =>
    by_cases h : e.key = k <;> simp [findInChain, h, ih]

theorem updateChain_map_key (c : List Entry) (k : Key) (v : Value) :
    (updateChain c k v).map Entry.key = c.map Entry.key := by
  induction c with
  | nil => rfl
  | cons e rest ih =>
    by_cases h : e.key = k <;> simp [updateChain, h, ih]

theorem findInChain_updateChain_self {c : List Entry} {k : Key} (v : Value)
    (h : chainContains c k = true) :
    findInChain (updateChain c k v) k = some v := by
  induction c with
  | nil => cases h
  | cons e rest ih =>
    by_cases he : e.key = k
    · simp [updateChain, he, findInChain]
    · have hr : chainContains rest k = true := by
        rw [chainContains] at h
        simpa [he] using h
      simp [updateChain, he, findInChain, ih hr]

theorem findInChain_updateChain_ne {c : List Entry} {k kp : Key} (v : Value)
    (h : kp ≠ k) :
    findInChain (updateChain c k v) kp = findInChain c kp := by
  have hs : ¬ k = kp := fun hh => h hh.symm
  induction c with
  | nil => rfl
  | cons e rest ih =>
    by_cases he : e.key = k
    · have hkp : ¬ e.key = kp := by rw [he]; exact hs
      simp [updateChain, he, findInChain, hkp, hs]
    · by_cases hkp : e.key = kp <;> simp [updateChain, he, findInChain, hkp, ih, h, hs]

theorem removeFromChain_eq_none_iff (c : List Entry) (k : Key) :
    removeFromChain c k = none ↔ findInChain c k = none := by
  induction c with
  | nil => simp [removeFromChain, findInChain]
  | cons e rest ih =>
    by_cases h : e.key = k <;> simp [removeFromChain, findInChain, h, ih]

theorem removeFromChain_some_decomp {c c' : List Entry} {k : Key}
    (h : removeFromChain c k = some c') :
    ∃ c1 e c2, c = c1 ++ e :: c2 ∧ c' = c1 ++ c2 ∧ Entry.key e = k ∧
      k ∉ c1.map Entry.key := by
  induction c generalizing c' with
  | nil => cases h
  | cons e rest ih =>
    rw [removeFromChain] at h
    split at h
    case isTrue he =>
      cases h
      exact ⟨[], e, rest, by simp, by simp, he, by simp⟩
    case isFalse he =>
      rcases Option.map_eq_some'.1 h with ⟨r', hr', hc'⟩
      obtain ⟨c1, e1, c2, hsplit, hrem, hkey, hnot⟩ := ih hr'
      refine ⟨e :: c1, e1, c2, by simp [hsplit], by rw [← hc', hrem, List.cons_append], hkey, ?_⟩
      simp only [List.map_cons, List.mem_cons]
      rintro (hk | hk)
      · exact he hk.symm
      · exact hnot hk

/- ==========================================
   Hash range and load factor
   ========================================== -/

theorem hash_lt (k : Key) {s : Nat} (hs : 0 < s) : hash k s < s := by
  have h1 : mix64 k % s < s := Nat.mod_lt _ hs
  have h2 : mix64 k % s % 2 ^ 32 ≤ mix64 k % s := Nat.mod_le _ _
  rw [hash]
  exact lt_of_le_of_lt h2 h1

/-- The resize guard of ht_put, written on Nat, agrees with the
ht_load_factor comparison against 0.75 whenever the size is positive. -/
theorem lt_load_factor_iff (ht : HashTable) (hs : 0 < ht.size) :
    3 / 4 < ht_load_factor ht ↔ 3 * ht.size < 4 * ht.count := by
  rw [ht_load_factor, div_lt_div_iff₀ (by norm_num) (by exact_mod_cast hs)]
  constructor
  · intro h
    have hq : (3 : ℚ) * ht.size < 4 * ht.count := by linarith
    exact_mod_cast hq
  · intro h
    have hq : (3 : ℚ) * ht.size < 4 * ht.count := by exact_mod_cast h
    linarith

/- ==========================================
   WF and the ht_get characterization
   ========================================== -/

theorem WF_create {n : Nat} (hn : 0 < n) : WF (ht_create n) := by
  refine ⟨by simp [ht_create], by simpa [ht_create] using hn, ?_, ?_, ?_⟩
  · intro i hi e he
    have hnil : (ht_create n).buckets.getD i [] = [] := by
      simp only [ht_create]
      exact getD_replicate_nil n i
    rw [hnil] at he
    cases he
  · simp [tableKeys, entries, ht_create, flatten_replicate_nil]
  · simp [entries, ht_create, flatten_replicate_nil]

theorem ht_get_create (n : Nat) (k : Key) : ht_get (ht_create n) k = none := by
  have hnil : (ht_create n).buckets.getD (hash k (ht_create n).size) [] = [] := by
    simp only [ht_create]
    exact getD_replicate_nil n _
  rw [ht_get, hnil]
  rfl

theorem ht_get_some_iff_mem {ht : HashTable} (hwf : WF ht) {k : Key} {v : Value} :
    ht_get ht k = some v ↔ (Entry.mk k v) ∈ entries ht := by
  obtain ⟨hlen, hpos, hcoh, hnd, hcount⟩ := hwf
  have hnd' : ((entries ht).map Entry.key).Nodup := hnd
  constructor
  · intro h
    rw [ht_get] at h
    have hidx : hash k ht.size < ht.buckets.length := by
      rw [hlen]; exact hash_lt k hpos
    have hchain : ht.buckets.getD (hash k ht.size) [] ∈ ht.buckets := getD_mem _ _ hidx
    exact List.mem_flatten.mpr ⟨_, hchain, findInChain_some_mem h⟩
  · intro h
    rcases List.mem_flatten.1 h with ⟨chain, hchain, hmem⟩
    rcases List.mem_iff_getElem.1 hchain with ⟨i, hi, hgi⟩
    have hgd : ht.buckets.getD i [] = chain := by
      rw [List.getD_eq_getElem?_getD, List.getElem?_eq_getElem hi, hgi]
      rfl
    have hki : hash k ht.size = i := by
      have hc := hcoh i hi (Entry.mk k v) (by rw [hgd]; exact hmem)
      simpa using hc
    have hsearch : ht.buckets.getD (hash k ht.size) [] = chain := by rw [hki, hgd]
    rcases Option.isSome_iff_exists.1 (mem_findInChain_isSome hmem) with ⟨v', hv'⟩
    have hmem' : Entry.mk k v' ∈ chain := findInChain_some_mem hv'
    have heq : Entry.mk k v = Entry.mk k v' :=
      List.inj_on_of_nodup_map hnd' h (List.mem_flatten.mpr ⟨_, hchain, hmem'⟩) rfl
    cases heq
    rw [ht_get, hsearch]
    exact hv'

theorem ht_get_none_iff {ht : HashTable} (hwf : WF ht) {k : Key} :
    ht_get ht k = none ↔ k ∉ tableKeys ht := by
  constructor
  · intro h hk
    rw [tableKeys] at hk
    rcases List.mem_map.1 hk with ⟨e, he, hek⟩
    have hmem : Entry.mk k e.value ∈ entries ht := by
      cases e
      cases hek
      exact he
    have hs := (ht_get_some_iff_mem hwf).mpr hmem
    rw [h] at hs
    cases hs
  · intro h
    cases hg : ht_get ht k with
    | none => rfl
    | some v =>
      have hmem := (ht_get_some_iff_mem hwf).1 hg
      have : k ∈ tableKeys ht := List.mem_map.mpr ⟨_, hmem, rfl⟩
      exact (h this).elim

/- ==========================================
   Resize: the rehash loop preserves the entries
   ========================================== -/

theorem pushEntry_length (ns : Nat) (bs : List (List Entry)) (e : Entry) :
    (pushEntry ns bs e).length = bs.length := by
  rw [pushEntry, List.length_set]

theorem pushEntry_coherent (ns : Nat) (bs : List (List Entry)) (e : Entry)
    (hcoh : ∀ i < bs.length, ∀ e2 ∈ bs.getD i [], hash e2.key ns = i) :
    ∀ i < (pushEntry ns bs e).length, ∀ e2 ∈ (pushEntry ns bs e).getD i [],
      hash e2.key ns = i := by
  intro i hi e2 he2
  rw [pushEntry_length] at hi
  by_cases hii : hash e.key ns = i
  · subst hii
    rw [pushEntry, getD_set_self _ _ _ hi] at he2
    rcases List.mem_cons.1 he2 with h0 | h0
    · rw [h0]
    · exact hcoh _ hi e2 h0
  · rw [pushEntry, getD_set_ne _ _ hii] at he2
    exact hcoh i hi e2 he2

theorem pushEntry_flatten_perm (ns : Nat) (bs : List (List Entry)) (e : Entry)
    (hidx : hash e.key ns < bs.length) :
    (pushEntry ns bs e).flatten.Perm (e :: bs.flatten) := by
  obtain ⟨pre, post, hold, hnew⟩ :=
    flatten_set_decomp bs (hash e.key ns) (e :: bs.getD (hash e.key ns) []) hidx
  rw [pushEntry, hnew, hold]
  simp only [List.append_assoc, List.cons_append]
  exact List.perm_middle

theorem rehashFold_spec (ns : Nat) (hns : 0 < ns) :
    ∀ (l : List Entry) (bs : List (List Entry)) (c : Nat),
      bs.length = ns →
      (∀ i < bs.length, ∀ e ∈ bs.getD i [], hash e.key ns = i) →
      (l.foldl (fun acc e => (pushEntry ns acc.1 e, acc.2 + 1)) (bs, c)).1.length = ns ∧
      (∀ i < (l.foldl (fun acc e => (pushEntry ns acc.1 e, acc.2 + 1)) (bs, c)).1.length,
        ∀ e ∈ (l.foldl (fun acc e => (pushEntry ns acc.1 e, acc.2 + 1)) (bs, c)).1.getD i [],
          hash e.key ns = i) ∧
      ((l.foldl (fun acc e => (pushEntry ns acc.1 e, acc.2 + 1)) (bs, c)).1.flatten).Perm
        (l ++ bs.flatten) ∧
      (l.foldl (fun acc e => (pushEntry ns acc.1 e, acc.2 + 1)) (bs, c)).2 = c + l.length := by
  intro l
  induction l with
  | nil =>
    intro bs c hlen hcoh
    exact ⟨hlen, hcoh, List.Perm.refl _, rfl⟩
  | cons e rest ih =>
    intro bs c hlen hcoh
    rw [List.foldl_cons]
    have hidx : hash e.key ns < bs.length := by
      rw [hlen]; exact hash_lt _ hns
    have hlen2 : (pushEntry ns bs e).length = ns := by
      rw [pushEntry_length]; exact hlen
    obtain ⟨h1, h2, h3, h4⟩ :=
      ih (pushEntry ns bs e) (c + 1) hlen2 (pushEntry_coherent ns bs e hcoh)
    refine ⟨h1, h2, ?_, by rw [h4, List.length_cons]; omega⟩
    have hstep := pushEntry_flatten_perm ns bs e hidx
    have hmid : (rest ++ e :: bs.flatten).Perm ((e :: rest) ++ bs.flatten) := by
      rw [List.cons_append]
      exact List.perm_middle.trans (List.Perm.refl _)
    exact h3.trans ((List.Perm.append_left rest hstep).trans hmid)

theorem rehashAll_eq_foldl (ns : Nat) (bs : List (List Entry)) :
    rehashAll ns bs =
      bs.flatten.foldl (fun acc e => (pushEntry ns acc.1 e, acc.2 + 1))
        (List.replicate ns [], 0) := by
  rw [rehashAll, List.foldl_flatten]

theorem ht_resize_true_spec {ht : HashTable} (hwf : WF ht) {ns : Nat} (hns : 0 < ns) :
    (ht_resize true ht ns).size = ns ∧
    (ht_resize true ht ns).count = ht.count ∧
    WF (ht_resize true ht ns) ∧
    (entries (ht_resize true ht ns)).Perm (entries ht) := by
  obtain ⟨hlen, hpos, hcoh, hnd, hcount⟩ := hwf
  have hinit_coh : ∀ i < (List.replicate ns ([] : List Entry)).length,
      ∀ e ∈ (List.replicate ns ([] : List Entry)).getD i [], hash e.key ns = i := by
    intro i hi e he
    rw [getD_replicate_nil] at he
    cases he
  obtain ⟨h1, h2, h3, h4⟩ :=
    rehashFold_spec ns hns ht.buckets.flatten (List.replicate ns []) 0
      (List.length_replicate ns []) hinit_coh
  have hbuckets : (ht_resize true ht ns).buckets =
      (ht.buckets.flatten.foldl (fun acc e => (pushEntry ns acc.1 e, acc.2 + 1))
        (List.replicate ns [], 0)).1 := by
    rw [ht_resize]
    simp only [if_true]
    rw [rehashAll_eq_foldl]
  have hcnt : (ht_resize true ht ns).count =
      (ht.buckets.flatten.foldl (fun acc e => (pushEntry ns acc.1 e, acc.2 + 1))
        (List.replicate ns [], 0)).2 := by
    rw [ht_resize]
    simp only [if_true]
    rw [rehashAll_eq_foldl]
  have hsz : (ht_resize true ht ns).size = ns := by rw [ht_resize]; simp
  have hperm : (entries (ht_resize true ht ns)).Perm (entries ht) := by
    rw [entries, hbuckets, entries]
    have h3' := h3
    rw [flatten_replicate_nil, List.append_nil] at h3'
    exact h3'
  have hcnt2 : (ht_resize true ht ns).count = ht.count := by
    rw [hcnt, h4, hcount, entries]
    omega
  refine ⟨hsz, hcnt2, ⟨?_, by rw [hsz]; exact hns, ?_, ?_, ?_⟩, hperm⟩
  · rw [hbuckets, hsz]
    exact h1
  · rw [hsz]
    rw [hbuckets]
    exact fun i hi e he => h2 i hi e he
  · have hmap := (hperm.map Entry.key).symm
    exact hmap.nodup hnd
  · rw [hcnt2, hcount]
    exact (hperm.length_eq).symm

theorem ht_get_resize {ht : HashTable} (hwf : WF ht) {ns : Nat} (hns : 0 < ns) (k : Key) :
    ht_get (ht_resize true ht ns) k = ht_get ht k := by
  obtain ⟨hsz, hcnt, hwf2, hperm⟩ := ht_resize_true_spec hwf hns
  cases hg : ht_get ht k with
  | some v =>
    exact (ht_get_some_iff_mem hwf2).mpr (hperm.mem_iff.mpr ((ht_get_some_iff_mem hwf).1 hg))
  | none =>
    have hk := (ht_get_none_iff hwf).1 hg
    refine (ht_get_none_iff hwf2).mpr ?_
    intro hmem
    exact hk ((hperm.map Entry.key).mem_iff.1 hmem)

theorem ht_resize_false (ht : HashTable) (ns : Nat) : ht_resize false ht ns = ht := rfl

/- ==========================================
   Insert: the post-resize part of ht_put
   ========================================== -/

theorem ht_insert_eq (eOk : Bool) (ht : HashTable) (k : Key) (v : Value) :
    ht_insert eOk ht k v =
      if chainContains (ht.buckets.getD (hash k ht.size) []) k then
        { ht with
            buckets := ht.buckets.set (hash k ht.size)
              (updateChain (ht.buckets.getD (hash k ht.size) []) k v) }
      else if eOk then
        { ht with
            buckets := ht.buckets.set (hash k ht.size)
              ((Entry.mk k v) :: ht.buckets.getD (hash k ht.size) []),
            count := ht.count + 1 }
      else ht := rfl

theorem updateChain_length (c : List Entry) (k : Key) (v : Value) :
    (updateChain c k v).length = c.length := by
  have h := congrArg List.length (updateChain_map_key c k v)
  simpa using h

theorem mem_updateChain_key {c : List Entry} {k : Key} {v : Value} {e : Entry}
    (h : e ∈ updateChain c k v) : ∃ e2 ∈ c, e2.key = e.key := by
  have hk : e.key ∈ (updateChain c k v).map Entry.key := List.mem_map.mpr ⟨e, h, rfl⟩
  rw [updateChain_map_key] at hk
  rcases List.mem_map.1 hk with ⟨e2, he2, hkey⟩
  exact ⟨e2, he2, hkey⟩

theorem ht_get_set (ht : HashTable) (i : Nat) (c : List Entry) (hi : i < ht.buckets.length)
    (cnt : Nat) (k : Key) :
    ht_get { buckets := ht.buckets.set i c, size := ht.size, count := cnt } k =
      if hash k ht.size = i then findInChain c k else ht_get ht k := by
  show findInChain ((ht.buckets.set i c).getD (hash k ht.size) []) k = _
  by_cases h : hash k ht.size = i
  · rw [h, getD_set_self _ _ _ hi, if_pos rfl]
  · rw [getD_set_ne _ _ (fun hh => h hh.symm), if_neg h]
    rfl

theorem ht_insert_get_self {ht : HashTable} (hwf : WF ht) (k : Key) (v : Value) :
    ht_get (ht_insert true ht k v) k = some v := by
  have hidx : hash k ht.size < ht.buckets.length := by
    rw [hwf.1]; exact hash_lt k hwf.2.1
  rw [ht_insert_eq]
  by_cases hc : chainContains (ht.buckets.getD (hash k ht.size) []) k
  · rw [if_pos hc, ht_get_set ht _ _ hidx, if_pos rfl]
    exact findInChain_updateChain_self v hc
  · rw [if_neg hc, if_pos rfl, ht_get_set ht _ _ hidx, if_pos rfl, findInChain]
    simp

theorem ht_insert_get_ne {ht : HashTable} (hwf : WF ht) (eOk : Bool) {k kp : Key} (v : Value)
    (hne : kp ≠ k) :
    ht_get (ht_insert eOk ht k v) kp = ht_get ht kp := by
  have hidx : hash k ht.size < ht.buckets.length := by
    rw [hwf.1]; exact hash_lt k hwf.2.1
  rw [ht_insert_eq]
  by_cases hc : chainContains (ht.buckets.getD (hash k ht.size) []) k
  · rw [if_pos hc, ht_get_set ht _ _ hidx]
    by_cases hh : hash kp ht.size = hash k ht.size
    · rw [if_pos hh, findInChain_updateChain_ne v hne, ht_get, hh]
    · rw [if_neg hh]
  · rw [if_neg hc]
    cases eOk with
    | false => simp
    | true =>
      rw [if_pos rfl, ht_get_set ht _ _ hidx]
      by_cases hh : hash kp ht.size = hash k ht.size
      · rw [if_pos hh, findInChain, if_neg (fun hx : (Entry.mk k v).key = kp => hne hx.symm),
          ht_get, hh]
      · rw [if_neg hh]

theorem WF_insert {ht : HashTable} (hwf : WF ht) (eOk : Bool) (k : Key) (v : Value) :
    WF (ht_insert eOk ht k v) := by
  obtain ⟨hlen, hpos, hcoh, hnd, hcount⟩ := id hwf
  have hidx : hash k ht.size < ht.buckets.length := by rw [hlen]; exact hash_lt k hpos
  rw [ht_insert_eq]
  by_cases hc : chainContains (ht.buckets.getD (hash k ht.size) []) k
  · rw [if_pos hc]
    obtain ⟨pre, post, hold, hnew⟩ := flatten_set_decomp ht.buckets (hash k ht.size)
      (updateChain (ht.buckets.getD (hash k ht.size) []) k v) hidx
    refine ⟨?_, hpos, ?_, ?_, ?_⟩
    · simp only [List.length_set]
      exact hlen
    · intro i hi e he
      simp only [List.length_set] at hi
      by_cases hii : hash k ht.size = i
      · subst hii
        rw [getD_set_self _ _ _ hidx] at he
        rcases mem_updateChain_key he with ⟨e2, he2, hkey⟩
        rw [← hkey]
        exact hcoh _ hidx e2 he2
      · rw [getD_set_ne _ _ hii] at he
        exact hcoh i hi e he
    · show (((ht.buckets.set (hash k ht.size)
        (updateChain (ht.buckets.getD (hash k ht.size) []) k v)).flatten).map Entry.key).Nodup
      rw [hnew]
      simp only [List.map_append, updateChain_map_key]
      have hold2 := congrArg (fun l => l.map Entry.key) hold
      simp only [List.map_append] at hold2
      rw [← hold2]
      exact hnd
    · show ht.count = ((ht.buckets.set (hash k ht.size)
        (updateChain (ht.buckets.getD (hash k ht.size) []) k v)).flatten).length
      rw [hnew, hcount, entries, hold]
      simp only [List.length_append, updateChain_length]
  · rw [if_neg hc]
    cases eOk with
    | false =>
      simp only [Bool.false_eq_true, if_false]
      exact hwf
    | true =>
      rw [if_pos rfl]
      obtain ⟨pre, post, hold, hnew⟩ := flatten_set_decomp ht.buckets (hash k ht.size)
        ((Entry.mk k v) :: ht.buckets.getD (hash k ht.size) []) hidx
      have hknotin : k ∉ (ht.buckets.flatten).map Entry.key := by
        have hnone : ht_get ht k = none := by
          rw [ht_get]
          exact (findInChain_eq_none_iff _ _).mpr
            (fun hm => hc ((chainContains_iff _ _).mpr hm))
        exact (ht_get_none_iff hwf).1 hnone
      refine ⟨?_, hpos, ?_, ?_, ?_⟩
      · simp only [List.length_set]
        exact hlen
      · intro i hi e he
        simp only [List.length_set] at hi
        by_cases hii : hash k ht.size = i
        · subst hii
          rw [getD_set_self _ _ _ hidx] at he
          rcases List.mem_cons.1 he with h0 | h0
          · rw [h0]
          · exact hcoh _ hidx e h0
        · rw [getD_set_ne _ _ hii] at he
          exact hcoh i hi e he
      · show (((ht.buckets.set (hash k ht.size)
          ((Entry.mk k v) :: ht.buckets.getD (hash k ht.size) [])).flatten).map Entry.key).Nodup
        rw [hnew]
        have hold2 := congrArg (fun l => l.map Entry.key) hold
        simp only [List.map_append] at hold2
        simp only [List.map_append, List.map_cons]
        rw [List.append_assoc, List.cons_append, List.nodup_middle, List.nodup_cons]
        constructor
        · intro hmem
          apply hknotin
          rw [hold2, List.append_assoc]
          exact hmem
        · rw [← List.append_assoc, ← hold2]
          exact hnd
      · show ht.count + 1 = ((ht.buckets.set (hash k ht.size)
          ((Entry.mk k v) :: ht.buckets.getD (hash k ht.size) [])).flatten).length
        rw [hnew, hcount, entries, hold]
        simp only [List.length_append, List.length_cons]
        omega

theorem ht_insert_size (eOk : Bool) (ht : HashTable) (k : Key) (v : Value) :
    (ht_insert eOk ht k v).size = ht.size := by
  rw [ht_insert_eq]
  split
  · rfl
  · split <;> rfl

theorem ht_insert_count_le (eOk : Bool) (ht : HashTable) (k : Key) (v : Value) :
    (ht_insert eOk ht k v).count ≤ ht.count + 1 := by
  rw [ht_insert_eq]
  split
  · exact Nat.le_succ _
  · split
    · exact Nat.le_refl _
    · exact Nat.le_succ _

theorem ht_insert_count_found {ht : HashTable} {k : Key} {v0 : Value}
    (hget : ht_get ht k = some v0) (eOk : Bool) (v : Value) :
    (ht_insert eOk ht k v).count = ht.count := by
  have hc : chainContains (ht.buckets.getD (hash k ht.size) []) k :=
    chainContains_eq_true_of_some (by rw [ht_get] at hget; exact hget)
  rw [ht_insert_eq, if_pos hc]

theorem ht_insert_count_new {ht : HashTable} {k : Key}
    (hget : ht_get ht k = none) (v : Value) :
    (ht_insert true ht k v).count = ht.count + 1 := by
  have hc : ¬ chainContains (ht.buckets.getD (hash k ht.size) []) k := by
    intro hcc
    have hm := (chainContains_iff _ _).1 hcc
    rw [ht_get] at hget
    exact (findInChain_eq_none_iff _ _).1 hget hm
  rw [ht_insert_eq, if_neg hc, if_pos rfl]

/- ==========================================
   ht_put: resize guard plus insert
   ========================================== -/

theorem ht_put_eq (rOk eOk : Bool) (ht : HashTable) (k : Key) (v : Value) :
    ht_put rOk eOk ht k v =
      ht_insert eOk (if 3 * ht.size < 4 * ht.count then ht_resize rOk ht (ht.size * 2) else ht)
        k v := rfl

theorem WF_put {ht : HashTable} (hwf : WF ht) (rOk eOk : Bool) (k : Key) (v : Value) :
    WF (ht_put rOk eOk ht k v) := by
  rw [ht_put_eq]
  by_cases hg : 3 * ht.size < 4 * ht.count
  · rw [if_pos hg]
    cases rOk with
    | false =>
      rw [ht_resize_false]
      exact WF_insert hwf eOk k v
    | true =>
      have hns : 0 < ht.size * 2 := by have := hwf.2.1; omega
      exact WF_insert (ht_resize_true_spec hwf hns).2.2.1 eOk k v
  · rw [if_neg hg]
    exact WF_insert hwf eOk k v

theorem ht_put_get_self {ht : HashTable} (hwf : WF ht) (k : Key) (v : Value) :
    ht_get (ht_put true true ht k v) k = some v := by
  rw [ht_put_eq]
  by_cases hg : 3 * ht.size < 4 * ht.count
  · rw [if_pos hg]
    have hns : 0 < ht.size * 2 := by have := hwf.2.1; omega
    exact ht_insert_get_self (ht_resize_true_spec hwf hns).2.2.1 k v
  · rw [if_neg hg]
    exact ht_insert_get_self hwf k v

theorem ht_put_get_ne {ht : HashTable} (hwf : WF ht) (rOk eOk : Bool) {k kp : Key} (v : Value)
    (hne : kp ≠ k) :
    ht_get (ht_put rOk eOk ht k v) kp = ht_get ht kp := by
  rw [ht_put_eq]
  by_cases hg : 3 * ht.size < 4 * ht.count
  · rw [if_pos hg]
    cases rOk with
    | false =>
      rw [ht_resize_false]
      exact ht_insert_get_ne hwf eOk v hne
    | true =>
      have hns : 0 < ht.size * 2 := by have := hwf.2.1; omega
      rw [ht_insert_get_ne (ht_resize_true_spec hwf hns).2.2.1 eOk v hne]
      exact ht_get_resize hwf hns kp
  · rw [if_neg hg]
    exact ht_insert_get_ne hwf eOk v hne

theorem ht_put_size {ht : HashTable} (hwf : WF ht) (eOk : Bool) (k : Key) (v : Value) :
    (ht_put true eOk ht k v).size =
      if 3 * ht.size < 4 * ht.count then ht.size * 2 else ht.size := by
  rw [ht_put_eq]
  by_cases hg : 3 * ht.size < 4 * ht.count
  · rw [if_pos hg, if_pos hg, ht_insert_size]
    have hns : 0 < ht.size * 2 := by have := hwf.2.1; omega
    exact (ht_resize_true_spec hwf hns).1
  · rw [if_neg hg, if_neg hg, ht_insert_size]

theorem ht_put_resize_fail (eOk : Bool) (ht : HashTable) (k : Key) (v : Value) :
    ht_put false eOk ht k v = ht_insert eOk ht k v := by
  rw [ht_put_eq]
  by_cases hg : 3 * ht.size < 4 * ht.count
  · rw [if_pos hg, ht_resize_false]
  · rw [if_neg hg]

theorem ht_put_count_found {ht : HashTable} (hwf : WF ht) {k : Key} {v0 : Value}
    (hget : ht_get ht k = some v0) (v : Value) :
    (ht_put true true ht k v).count = ht.count := by
  rw [ht_put_eq]
  by_cases hg : 3 * ht.size < 4 * ht.count
  · rw [if_pos hg]
    have hns : 0 < ht.size * 2 := by have := hwf.2.1; omega
    have hget2 : ht_get (ht_resize true ht (ht.size * 2)) k = some v0 := by
      rw [ht_get_resize hwf hns]
      exact hget
    rw [ht_insert_count_found hget2 true v]
    exact (ht_resize_true_spec hwf hns).2.1
  · rw [if_neg hg]
    exact ht_insert_count_found hget true v

theorem findInChain_removeFromChain_self {c c' : List Entry} {k : Key}
    (hnd : (c.map Entry.key).Nodup) (h : removeFromChain c k = some c') :
    findInChain c' k = none := by
  obtain ⟨c1, e0, c2, hsplit, hc', hkey, hnotc1⟩ := removeFromChain_some_decomp h
  rw [hc', findInChain_eq_none_iff, List.map_append]
  intro hmem
  rcases List.mem_append.1 hmem with hm | hm
  · exact hnotc1 hm
  · rw [hsplit] at hnd
    simp only [List.map_append, List.map_cons] at hnd
    rw [List.nodup_middle] at hnd
    rcases List.nodup_cons.1 hnd with ⟨hnotin, _⟩
    apply hnotin
    rw [hkey]
    exact List.mem_append.2 (Or.inr hm)

theorem findInChain_removeFromChain_ne {c c' : List Entry} {k : Key} (kp : Key)
    (hne : kp ≠ k) (h : removeFromChain c k = some c') :
    findInChain c' kp = findInChain c kp := by
  obtain ⟨c1, e0, c2, hsplit, hc', hkey, hnotc1⟩ := removeFromChain_some_decomp h
  rw [hc', hsplit, findInChain_append, findInChain_append]
  cases hf : findInChain c1 kp with
  | some v => rfl
  | none =>
    show findInChain c2 kp = findInChain (e0 :: c2) kp
    have hne0 : ¬ e0.key = kp := by
      rw [hkey]
      exact fun hh => hne hh.symm
    rw [findInChain, if_neg hne0]

/- ==========================================
   ht_remove
   ========================================== -/

theorem ht_remove_eq (ht : HashTable) (k : Key) :
    ht_remove ht k =
      match removeFromChain (ht.buckets.getD (hash k ht.size) []) k with
      | some chain =>
        (true, { ht with
            buckets := ht.buckets.set (hash k ht.size) chain,
            count := ht.count - 1 })
      | none => (false, ht) := rfl

theorem ht_remove_not_found {ht : HashTable} {k : Key} (hget : ht_get ht k = none) :
    ht_remove ht k = (false, ht) := by
  have hnone : removeFromChain (ht.buckets.getD (hash k ht.size) []) k = none :=
    (removeFromChain_eq_none_iff _ _).mpr (by rw [ht_get] at hget; exact hget)
  rw [ht_remove_eq, hnone]

theorem ht_remove_found_spec {ht : HashTable} (hwf : WF ht) {k : Key} {v : Value}
    (hget : ht_get ht k = some v) :
    (ht_remove ht k).1 = true ∧
    (ht_remove ht k).2.count + 1 = ht.count ∧
    (ht_remove ht k).2.size = ht.size ∧
    WF (ht_remove ht k).2 ∧
    ht_get (ht_remove ht k).2 k = none ∧
    ∀ kp, kp ≠ k → ht_get (ht_remove ht k).2 kp = ht_get ht kp := by
  obtain ⟨hlen, hpos, hcoh, hnd, hcount⟩ := id hwf
  have hidx : hash k ht.size < ht.buckets.length := by rw [hlen]; exact hash_lt k hpos
  have hfind : findInChain (ht.buckets.getD (hash k ht.size) []) k = some v := by
    rw [ht_get] at hget
    exact hget
  have hchain_nd : ((ht.buckets.getD (hash k ht.size) []).map Entry.key).Nodup := by
    have hsub := List.sublist_flatten_of_mem (getD_mem ht.buckets _ hidx)
    exact (hsub.map Entry.key).nodup hnd
  cases hrem : removeFromChain (ht.buckets.getD (hash k ht.size) []) k with
  | none =>
    exfalso
    rw [(removeFromChain_eq_none_iff _ _).1 hrem] at hfind
    cases hfind
  | some chain2 =>
    obtain ⟨c1, e0, c2, hsplit, hc2, hkey0, hnotc1⟩ := removeFromChain_some_decomp hrem
    have hsub2 : chain2.Sublist (ht.buckets.getD (hash k ht.size) []) := by
      rw [hsplit, hc2]
      exact List.Sublist.append (List.Sublist.refl c1) (List.sublist_cons_self e0 c2)
    obtain ⟨pre, post, hold, hnew⟩ := flatten_set_decomp ht.buckets (hash k ht.size) chain2 hidx
    have hlen_chain : (ht.buckets.getD (hash k ht.size) []).length = chain2.length + 1 := by
      rw [hsplit, hc2]
      simp
      omega
    have hresult : ht_remove ht k =
        (true, { ht with
            buckets := ht.buckets.set (hash k ht.size) chain2,
            count := ht.count - 1 }) := by
      rw [ht_remove_eq, hrem]
    have hcount_pos : 0 < ht.count := by
      rw [hcount, entries, hold]
      simp only [List.length_append, hlen_chain]
      omega
    refine ⟨by rw [hresult], by rw [hresult]; simp; omega, by rw [hresult], ?_, ?_, ?_⟩
    · rw [hresult]
      refine ⟨?_, hpos, ?_, ?_, ?_⟩
      · simp only [List.length_set]
        exact hlen
      · intro i hi e he
        simp only [List.length_set] at hi
        by_cases hii : hash k ht.size = i
        · subst hii
          rw [getD_set_self _ _ _ hidx] at he
          exact hcoh _ hidx e (hsub2.subset he)
        · rw [getD_set_ne _ _ hii] at he
          exact hcoh i hi e he
      · show (((ht.buckets.set (hash k ht.size) chain2).flatten).map Entry.key).Nodup
        rw [hnew]
        have hsubfl : (pre ++ chain2 ++ post).Sublist (ht.buckets.flatten) := by
          rw [hold]
          exact List.Sublist.append
            (List.Sublist.append (List.Sublist.refl pre) hsub2) (List.Sublist.refl post)
        exact (hsubfl.map Entry.key).nodup hnd
      · show ht.count - 1 = ((ht.buckets.set (hash k ht.size) chain2).flatten).length
        rw [hnew, hcount, entries, hold]
        simp only [List.length_append, hlen_chain]
        omega
    · rw [hresult]
      rw [ht_get_set ht _ _ hidx, if_pos rfl]
      exact findInChain_removeFromChain_self hchain_nd hrem
    · intro kp hne
      rw [hresult, ht_get_set ht _ _ hidx]
      by_cases hh : hash kp ht.size = hash k ht.size
      · rw [if_pos hh, findInChain_removeFromChain_ne kp hne hrem, ht_get, hh]
      · rw [if_neg hh]

theorem ht_remove_size (ht : HashTable) (k : Key) :
    (ht_remove ht k).2.size = ht.size := by
  rw [ht_remove_eq]
  cases removeFromChain (ht.buckets.getD (hash k ht.size) []) k <;> rfl

/- ==========================================
   ht_clear
   ========================================== -/

theorem ht_clear_size (ht : HashTable) : (ht_clear ht).size = ht.size := rfl

theorem ht_clear_count (ht : HashTable) : (ht_clear ht).count = 0 := rfl

theorem ht_clear_buckets_length (ht : HashTable) :
    (ht_clear ht).buckets.length = ht.buckets.length := by
  show (ht.buckets.map (fun _ => [])).length = ht.buckets.length
  rw [List.length_map]

theorem ht_clear_buckets_nil (ht : HashTable) : ∀ b ∈ (ht_clear ht).buckets, b = [] := by
  intro b hb
  have hb2 : b ∈ ht.buckets.map (fun _ => ([] : List Entry)) := hb
  rcases List.mem_map.1 hb2 with ⟨x, hx, hxx⟩
  exact hxx.symm

theorem ht_get_clear (ht : HashTable) (k : Key) : ht_get (ht_clear ht) k = none := by
  show findInChain ((ht.buckets.map (fun _ => [])).getD (hash k ht.size) []) k = none
  rw [getD_map_const_nil]
  rfl

theorem WF_clear {ht : HashTable} (hwf : WF ht) : WF (ht_clear ht) := by
  refine ⟨?_, hwf.2.1, ?_, ?_, ?_⟩
  · show (ht.buckets.map (fun _ => [])).length = ht.size
    rw [List.length_map]
    exact hwf.1
  · intro i hi e he
    have h0 : (ht_clear ht).buckets.getD i [] = [] := getD_map_const_nil ht.buckets i
    rw [h0] at he
    cases he
  · show ((ht.buckets.map (fun _ => [])).flatten.map Entry.key).Nodup
    rw [flatten_map_const_nil]
    exact List.nodup_nil
  · show 0 = ((ht.buckets.map (fun _ => [])).flatten).length
    rw [flatten_map_const_nil]
    rfl

/- ==========================================
   Reachability invariants
   ========================================== -/

theorem WF_reachable {ht : HashTable} (h : Reachable ht) : WF ht := by
  induction h with
  | create n hn => exact WF_create hn
  | put rOk eOk ht k v hr ih => exact WF_put ih rOk eOk k v
  | remove ht k hr ih =>
    cases hg : ht_get ht k with
    | none =>
      rw [ht_remove_not_found hg]
      exact ih
    | some v => exact (ht_remove_found_spec ih hg).2.2.2.1
  | clear ht hr ih => exact WF_clear ih

theorem reachableOk_reachable {ht : HashTable} (h : ReachableOk ht) : Reachable ht := by
  induction h with
  | create n hn => exact Reachable.create n hn
  | put ht k v hr ih => exact Reachable.put true true ht k v ih
  | remove ht k hr ih => exact Reachable.remove ht k ih
  | clear ht hr ih => exact Reachable.clear ht ih

/-- The load-factor invariant that the code actually maintains when all
allocations succeed: since the resize check uses the pre-insertion
count, the count can reach 3/4 of the capacity plus one entry, never
more. -/
theorem reachableOk_load {ht : HashTable} (h : ReachableOk ht) :
    4 * ht.count ≤ 3 * ht.size + 4 := by
  induction h with
  | create n hn =>
    show 4 * 0 ≤ 3 * n + 4
    omega
  | put ht k v hr ih =>
    have hwf := WF_reachable (reachableOk_reachable hr)
    have hpos := hwf.2.1
    rw [ht_put_eq]
    by_cases hg : 3 * ht.size < 4 * ht.count
    · rw [if_pos hg]
      have hns : 0 < ht.size * 2 := by omega
      obtain ⟨hsz, hcnt, hwf2, _⟩ := ht_resize_true_spec hwf hns
      have hc := ht_insert_count_le true (ht_resize true ht (ht.size * 2)) k v
      have hs := ht_insert_size true (ht_resize true ht (ht.size * 2)) k v
      rw [hcnt] at hc
      rw [hsz] at hs
      omega
    · rw [if_neg hg]
      have hc := ht_insert_count_le true ht k v
      have hs := ht_insert_size true ht k v
      omega
  | remove ht k hr ih =>
    cases hg : ht_get ht k with
    | none =>
      rw [ht_remove_not_found hg]
      exact ih
    | some v =>
      have hwf := WF_reachable (reachableOk_reachable hr)
      obtain ⟨h1, h2, h3, _⟩ := ht_remove_found_spec hwf hg
      omega
  | clear ht hr ih =>
    show 4 * 0 ≤ 3 * ht.size + 4
    omega

/- ==========================================
   Sequences of puts
   ========================================== -/

theorem putList_nil (ht : HashTable) : putList ht [] = ht := rfl

theorem putList_cons (ht : HashTable) (p : Key × Value) (ps : List (Key × Value)) :
    putList ht (p :: ps) = putList (ht_put true true ht p.1 p.2) ps := rfl

theorem WF_putList {ht : HashTable} (hwf : WF ht) (ps : List (Key × Value)) :
    WF (putList ht ps) := by
  induction ps generalizing ht with
  | nil => exact hwf
  | cons p ps ih => exact ih (WF_put hwf true true p.1 p.2)

theorem putList_get_not_mem {ht : HashTable} (hwf : WF ht) {k : Key}
    (ps : List (Key × Value)) (h : k ∉ ps.map Prod.fst) :
    ht_get (putList ht ps) k = ht_get ht k := by
  induction ps generalizing ht with
  | nil => rfl
  | cons p ps ih =>
    rw [putList_cons]
    simp only [List.map_cons, List.mem_cons, not_or] at h
    rw [ih (WF_put hwf true true p.1 p.2) h.2]
    exact ht_put_get_ne hwf true true p.2 h.1

theorem putList_get_mem {ht : HashTable} (hwf : WF ht) {k : Key} {v : Value}
    (ps : List (Key × Value)) (hnd : (ps.map Prod.fst).Nodup) (hmem : (k, v) ∈ ps) :
    ht_get (putList ht ps) k = some v := by
  induction ps generalizing ht with
  | nil => cases hmem
  | cons p ps ih =>
    rw [putList_cons]
    simp only [List.map_cons, List.nodup_cons] at hnd
    rcases List.mem_cons.1 hmem with h0 | h0
    · have hp1 : p.1 = k := by rw [← h0]
      have hp2 : p.2 = v := by rw [← h0]
      have hk : k ∉ ps.map Prod.fst := by
        rw [← hp1]
        exact hnd.1
      rw [putList_get_not_mem (WF_put hwf true true p.1 p.2) ps hk, hp1, hp2]
      exact ht_put_get_self hwf k v
    · exact ih (WF_put hwf true true p.1 p.2) hnd.2 h0

/-- In a table whose keys are pairwise distinct across all chains, at
most one entry carries any given key. -/
theorem countP_key_le_one {l : List Entry} (hnd : (l.map Entry.key).Nodup) (k : Key) :
    l.countP (fun e => e.key == k) ≤ 1 := by
  induction l with
  | nil => simp
  | cons e rest ih =>
    simp only [List.map_cons, List.nodup_cons] at hnd
    by_cases he : e.key = k
    · rw [List.countP_cons_of_pos _ _ (by simp [he])]
      have h0 : rest.countP (fun e2 => e2.key == k) = 0 := by
        rw [List.countP_eq_zero]
        intro a ha hak
        have hak2 : a.key = k := by simpa using hak
        apply hnd.1
        rw [he, ← hak2]
        exact List.mem_map.mpr ⟨a, ha, rfl⟩
      rw [h0]
    · rw [List.countP_cons_of_neg _ _ (by simp [he])]
      exact Nat.le_trans (ih hnd.2) (Nat.le_refl 1)

theorem ht_clear_bucket_empty (ht : HashTable) (i : Nat) :
    (ht_clear ht).buckets.getD i [] = [] :=
  getD_map_const_nil ht.buckets i

/- ==========================================
   Claims
   ========================================== -/

/-- Claim C1: for every sequence of ht_put calls with pairwise distinct
keys on a table created with positive capacity, ht_get afterwards
returns true with out_value set to v for every inserted pair (k, v),
and returns false for any key never inserted. -/
theorem C1_put_get_distinct (n : Nat) (hn : 0 < n) (ps : List (Key × Value))
    (hnd : (ps.map Prod.fst).Nodup) :
    (∀ kv ∈ ps, ht_get (putList (ht_create n) ps) kv.1 = some kv.2) ∧
    (∀ k : Key, k ∉ ps.map Prod.fst → ht_get (putList (ht_create n) ps) k = none) := by
  constructor
  · intro kv hkv
    exact putList_get_mem (WF_create hn) ps hnd hkv
  · intro k hk
    rw [putList_get_not_mem (WF_create hn) ps hk]
    exact ht_get_create n k

/-- Claim C1, instantiated: three distinct keys into a capacity-2 table
(crossing the growth threshold on the way). -/
theorem C1_witness :
    ht_get (putList (ht_create 2) [(1, 10), (2, 20), (3, 30)]) 2 = some 20 ∧
    ht_get (putList (ht_create 2) [(1, 10), (2, 20), (3, 30)]) 7 = none :=
  ⟨(C1_put_get_distinct 2 (by decide) [(1, 10), (2, 20), (3, 30)] (by decide)).1
      (2, 20) (by decide),
    (C1_put_get_distinct 2 (by decide) [(1, 10), (2, 20), (3, 30)] (by decide)).2
      7 (by decide)⟩

/-- Claim C2, counterexample: the claim says the load factor never
exceeds 0.75 when ht_put returns and that a resize happens whenever the
insertion would push it above 0.75.  One ht_put on a freshly created
capacity-1 table (a reachable state) leaves load factor 1 > 0.75 with
no resize (the capacity is still 1), because the code checks the load
factor before the insertion, using the pre-insertion count. -/
theorem C2_counterexample :
    Reachable (ht_put true true (ht_create 1) 0 0) ∧
    3 / 4 < ht_load_factor (ht_put true true (ht_create 1) 0 0) ∧
    (ht_put true true (ht_create 1) 0 0).size = (ht_create 1).size := by
  refine ⟨Reachable.put true true _ 0 0 (Reachable.create 1 (by decide)), ?_, by decide⟩
  have hc : (ht_put true true (ht_create 1) 0 0).count = 1 := by decide
  have hs : (ht_put true true (ht_create 1) 0 0).size = 1 := by decide
  rw [ht_load_factor, hc, hs]
  norm_num

/-- Claim C2 (amended): ht_put resizes to double capacity before the
insertion proper iff the load factor already exceeds 0.75 at the start
of the call; consequently the load factor just after a put may exceed
0.75, but on tables reachable with all allocations succeeding it never
exceeds 0.75 by more than one entry: 4*count <= 3*capacity + 4. -/
theorem C2_amended_load (ht : HashTable) (k : Key) (v : Value) :
    (0 < ht.size → 3 / 4 < ht_load_factor ht →
      ht_put true true ht k v = ht_insert true (ht_resize true ht (ht.size * 2)) k v) ∧
    (ReachableOk ht →
      4 * (ht_put true true ht k v).count ≤ 3 * (ht_put true true ht k v).size + 4) := by
  constructor
  · intro hpos hlf
    rw [ht_put_eq, if_pos ((lt_load_factor_iff ht hpos).1 hlf)]
  · intro hr
    exact reachableOk_load (ReachableOk.put ht k v hr)

/-- Claim C2 (amended), instantiated on a full capacity-1 table. -/
theorem C2_witness :
    ht_put true true (ht_put true true (ht_create 1) 0 0) 5 7 =
      ht_insert true (ht_resize true (ht_put true true (ht_create 1) 0 0)
        ((ht_put true true (ht_create 1) 0 0).size * 2)) 5 7 ∧
    4 * (ht_put true true (ht_put true true (ht_create 1) 0 0) 5 7).count ≤
      3 * (ht_put true true (ht_put true true (ht_create 1) 0 0) 5 7).size + 4 := by
  constructor
  · refine (C2_amended_load (ht_put true true (ht_create 1) 0 0) 5 7).1 (by decide) ?_
    have hc : (ht_put true true (ht_create 1) 0 0).count = 1 := by decide
    have hs : (ht_put true true (ht_create 1) 0 0).size = 1 := by decide
    rw [ht_load_factor, hc, hs]
    norm_num
  · exact (C2_amended_load (ht_put true true (ht_create 1) 0 0) 5 7).2
      (ReachableOk.put _ 0 0 (ReachableOk.create 1 (by decide)))

/-- Claim C3: a successful resize (as triggered by ht_put, to twice the
old size) has exactly double the capacity, an unchanged count, and
every key still maps to its last written value; since this holds for
every well-formed table it holds at every threshold crossing. -/
theorem C3_resize_preserves (ht : HashTable) (hwf : WF ht) :
    (ht_resize true ht (ht.size * 2)).size = 2 * ht.size ∧
    (ht_resize true ht (ht.size * 2)).count = ht.count ∧
    ∀ k : Key, ht_get (ht_resize true ht (ht.size * 2)) k = ht_get ht k := by
  have hns : 0 < ht.size * 2 := by
    have := hwf.2.1
    omega
  obtain ⟨hsz, hcnt, hwf2, _⟩ := ht_resize_true_spec hwf hns
  exact ⟨by rw [hsz]; ring, hcnt, fun k => ht_get_resize hwf hns k⟩

/-- Claim C3, instantiated on the table holding keys 1, 2, 3. -/
theorem C3_witness :
    (ht_resize true (putList (ht_create 2) [(1, 10), (2, 20), (3, 30)])
        ((putList (ht_create 2) [(1, 10), (2, 20), (3, 30)]).size * 2)).size =
      2 * (putList (ht_create 2) [(1, 10), (2, 20), (3, 30)]).size ∧
    ht_get (ht_resize true (putList (ht_create 2) [(1, 10), (2, 20), (3, 30)])
        ((putList (ht_create 2) [(1, 10), (2, 20), (3, 30)]).size * 2)) 1 =
      ht_get (putList (ht_create 2) [(1, 10), (2, 20), (3, 30)]) 1 :=
  ⟨(C3_resize_preserves _ (by decide)).1, (C3_resize_preserves _ (by decide)).2.2 1⟩

/-- Claim C4: the table never holds two entries with the same key, and
ht_put is an upsert: put(k, v1) then put(k, v2) leaves get(k) = v2 and
the size unchanged by the second put. -/
theorem C4_upsert (ht : HashTable) (hr : Reachable ht) (k : Key) (v1 v2 : Value) :
    (∀ kq : Key, (entries ht).countP (fun e => e.key == kq) ≤ 1) ∧
    ht_get (ht_put true true (ht_put true true ht k v1) k v2) k = some v2 ∧
    ht_size (ht_put true true (ht_put true true ht k v1) k v2) =
      ht_size (ht_put true true ht k v1) := by
  have hwf := WF_reachable hr
  have hwf1 := WF_put hwf true true k v1
  refine ⟨fun kq => countP_key_le_one hwf.2.2.2.1 kq, ht_put_get_self hwf1 k v2, ?_⟩
  show (ht_put true true (ht_put true true ht k v1) k v2).count =
    (ht_put true true ht k v1).count
  exact ht_put_count_found hwf1 (ht_put_get_self hwf k v1) v2

/-- Claim C4, instantiated. -/
theorem C4_witness :
    (entries (ht_create 4)).countP (fun e => e.key == 1) ≤ 1 ∧
    ht_get (ht_put true true (ht_put true true (ht_create 4) 1 10) 1 20) 1 = some 20 ∧
    ht_size (ht_put true true (ht_put true true (ht_create 4) 1 10) 1 20) =
      ht_size (ht_put true true (ht_create 4) 1 10) :=
  ⟨(C4_upsert _ (Reachable.create 4 (by decide)) 1 10 20).1 1,
   (C4_upsert _ (Reachable.create 4 (by decide)) 1 10 20).2.1,
   (C4_upsert _ (Reachable.create 4 (by decide)) 1 10 20).2.2⟩

/-- Claim C5: after put(k, v) then remove(k), get(k) is not found and
the size dropped by exactly one; a second remove(k) returns false; and
a remove of a key that is not present returns false and leaves the size
unchanged. -/
theorem C5_remove_law (ht : HashTable) (hwf : WF ht) (k : Key) (v : Value) :
    (ht_remove (ht_put true true ht k v) k).1 = true ∧
    ht_get (ht_remove (ht_put true true ht k v) k).2 k = none ∧
    ht_size (ht_remove (ht_put true true ht k v) k).2 + 1 =
      ht_size (ht_put true true ht k v) ∧
    (ht_remove (ht_remove (ht_put true true ht k v) k).2 k).1 = false ∧
    ∀ kq : Key, ht_get ht kq = none →
      (ht_remove ht kq).1 = false ∧ ht_size (ht_remove ht kq).2 = ht_size ht := by
  have hwf1 := WF_put hwf true true k v
  have hget1 := ht_put_get_self hwf k v
  obtain ⟨h1, h2, h3, hwf2, h5, h6⟩ := ht_remove_found_spec hwf1 hget1
  refine ⟨h1, h5, h2, ?_, ?_⟩
  · rw [ht_remove_not_found h5]
  · intro kq hq
    rw [ht_remove_not_found hq]
    exact ⟨rfl, rfl⟩

/-- Claim C5, instantiated. -/
theorem C5_witness :
    (ht_remove (ht_put true true (ht_create 4) 2 9) 2).1 = true ∧
    ht_get (ht_remove (ht_put true true (ht_create 4) 2 9) 2).2 2 = none ∧
    (ht_remove (ht_create 4) 3).1 = false :=
  ⟨(C5_remove_law (ht_create 4) (by decide) 2 9).1,
   (C5_remove_law (ht_create 4) (by decide) 2 9).2.1,
   ((C5_remove_law (ht_create 4) (by decide) 2 9).2.2.2.2 3 (by decide)).1⟩

/-- Claim C6: ht_clear leaves size() = 0, every bucket empty (so every
previously present key is reported not found), and the capacity exactly
as it was before the clear. -/
theorem C6_clear_frame (ht : HashTable) :
    ht_size (ht_clear ht) = 0 ∧
    (ht_clear ht).size = ht.size ∧
    (ht_clear ht).buckets.length = ht.buckets.length ∧
    (∀ i : Nat, (ht_clear ht).buckets.getD i [] = []) ∧
    ∀ k : Key, ht_get (ht_clear ht) k = none :=
  ⟨rfl, rfl, ht_clear_buckets_length ht, ht_clear_bucket_empty ht, ht_get_clear ht⟩

/-- Claim C7: when the resize allocation fails the table is returned
unchanged (buckets, capacity, count, entries), and the triggering
ht_put still completes its insertion or update against the old
capacity, whose load factor may then stay above 0.75. -/
theorem C7_resize_alloc_fail (ht : HashTable) (hwf : WF ht) (k : Key) (v : Value) (ns : Nat) :
    ht_resize false ht ns = ht ∧
    ht_put false true ht k v = ht_insert true ht k v ∧
    (ht_put false true ht k v).size = ht.size ∧
    ht_get (ht_put false true ht k v) k = some v ∧
    (∀ kp : Key, kp ≠ k → ht_get (ht_put false true ht k v) kp = ht_get ht kp) ∧
    ∃ t : HashTable, WF t ∧ 3 / 4 < ht_load_factor (ht_put false true t 0 0) := by
  refine ⟨ht_resize_false ht ns, ht_put_resize_fail true ht k v, ?_, ?_, ?_, ?_⟩
  · rw [ht_put_resize_fail, ht_insert_size]
  · rw [ht_put_resize_fail]
    exact ht_insert_get_self hwf k v
  · intro kp hne
    rw [ht_put_resize_fail]
    exact ht_insert_get_ne hwf true v hne
  · refine ⟨⟨[[Entry.mk 0 5]], 1, 1⟩, by decide, ?_⟩
    have hc : (ht_put false true (⟨[[Entry.mk 0 5]], 1, 1⟩ : HashTable) 0 0).count = 1 := by
      decide
    have hs : (ht_put false true (⟨[[Entry.mk 0 5]], 1, 1⟩ : HashTable) 0 0).size = 1 := by
      decide
    rw [ht_load_factor, hc, hs]
    norm_num

/-- Claim C7, instantiated. -/
theorem C7_witness :
    ht_resize false (ht_create 4) 8 = ht_create 4 ∧
    ht_get (ht_put false true (ht_create 4) 1 2) 1 = some 2 ∧
    ht_get (ht_put false true (ht_create 4) 1 2) 6 = ht_get (ht_create 4) 6 :=
  ⟨(C7_resize_alloc_fail (ht_create 4) (by decide) 1 2 8).1,
   (C7_resize_alloc_fail (ht_create 4) (by decide) 1 2 8).2.2.2.1,
   (C7_resize_alloc_fail (ht_create 4) (by decide) 1 2 8).2.2.2.2.1 6 (by decide)⟩

/-- Claim C8: hash is deterministic (equal keys and capacities give the
same index) and its result lies in the half-open range below any
positive capacity. -/
theorem C8_hash_range_det (k1 k2 : Key) (s : Nat) (hk : k1 = k2) (hs : 0 < s) :
    hash k1 s = hash k2 s ∧ hash k1 s < s :=
  ⟨by rw [hk], hash_lt k1 hs⟩

/-- Claim C8, instantiated on a large key. -/
theorem C8_witness :
    hash 99999999999 8 = hash 99999999999 8 ∧ hash 99999999999 8 < 8 :=
  C8_hash_range_det 99999999999 99999999999 8 rfl (by decide)

/-- Claim C9: query_partition returns the stored partition value for a
present key, and the same not-found indicator (the affinity_value_t,
i.e. uint32, representation of -1) both when the key is absent and when
the partition map was never initialized. -/
theorem C9_query_partition (pm : HashTable) (k : Key) (v : Value) :
    query_partition none k = NOT_FOUND ∧
    (ht_get pm k = some v → query_partition (some pm) k = v) ∧
    (ht_get pm k = none → query_partition (some pm) k = NOT_FOUND) ∧
    NOT_FOUND = ((-1 : Int) % 2 ^ 32).toNat := by
  refine ⟨rfl, ?_, ?_, by decide⟩
  · intro h
    show (match ht_get pm k with | some v2 => v2 | none => NOT_FOUND) = v
    rw [h]
  · intro h
    show (match ht_get pm k with | some v2 => v2 | none => NOT_FOUND) = NOT_FOUND
    rw [h]

/-- Claim C9, instantiated. -/
theorem C9_witness :
    query_partition none 4 = NOT_FOUND ∧
    query_partition (some (ht_put true true (ht_create 2) 4 9)) 4 = 9 ∧
    query_partition (some (ht_put true true (ht_create 2) 4 9)) 5 = NOT_FOUND :=
  ⟨(C9_query_partition (ht_put true true (ht_create 2) 4 9) 4 9).1,
   (C9_query_partition (ht_put true true (ht_create 2) 4 9) 4 9).2.1 (by decide),
   (C9_query_partition (ht_put true true (ht_create 2) 4 9) 5 9).2.2.1 (by decide)⟩

/-- Claim C10: ht_create accepts a requested capacity of 0 without
rejecting it, yet a capacity-0 table has no valid bucket index at all
(every operation's bucket lookup hash(k, 0) falls outside the empty
range), while any positive capacity puts every hash index in range:
well-definedness of the operations needs capacity > 0 and create does
not enforce it. -/
theorem C10_zero_capacity :
    (ht_create 0).size = 0 ∧
    (ht_create 0).buckets.length = 0 ∧
    (∀ k : Key, ¬ hash k 0 < (ht_create 0).buckets.length) ∧
    ∀ (k : Key) (s : Nat), 0 < s → hash k s < s := by
  refine ⟨rfl, rfl, ?_, fun k s hs => hash_lt k hs⟩
  intro k h
  have h0 : (ht_create 0).buckets.length = 0 := rfl
  rw [h0] at h
  exact Nat.not_lt_zero _ h

/-- Claim C10, instantiated. -/
theorem C10_witness :
    (¬ hash (-5) 0 < (ht_create 0).buckets.length) ∧ 0 < 7 ∧ hash (-5) 7 < 7 :=
  ⟨C10_zero_capacity.2.2.1 (-5), by decide, C10_zero_capacity.2.2.2 (-5) 7 (by decide)⟩

end Affinity
